import Mathlib

set_option maxHeartbeats 1000000

/-! Shallow embedding of the dask-histogram aggregation engine
(`src/dask_histogram/core.py`): the partitioned and aggregated histogram
collections, the reduction tree builder `_reduction`, the blockwise fill
graph construction `_reduced_histogram`, the binary operator constructor
`BinaryOp.__call__`, the finalization functions, and `to_dask_array`.
Per-partition histogram contents are modelled as a single rational
accumulator; histogram addition is rational addition, which keeps the
associative/commutative combine structure of the source. -/

/-- Storage kinds of the external histogram library (`boost_histogram.storage`). -/
inductive Storage where
  | Double
  | Int64
  | AtomicInt64
  | Weight
  | Mean
  | WeightedMean
  | Unlimited
deriving DecidableEq, Repr

/-- One axis of a reference histogram: its bin count (`extent`, the length of
`histref.shape` in that dimension) and its bin-edge array (`ax.edges`). -/
structure Axis where
  extent : Nat
  edges : List Int
deriving DecidableEq, Repr

/-- Reference descriptor: ordered axes plus storage kind, as carried by the
`histref` argument (`bh.Histogram(*axes, storage=...)`). -/
structure Histref where
  axes : List Axis
  storage : Storage
deriving DecidableEq, Repr

/-- A dask layer name.  In the source these are strings `"{tag}-{token}"`
(for example `f"hist-aggregate-{tokenize(ph, sum, split_every)}"`), optionally
suffixed with a reduction level index (`c = f"{fmt}{d}"`).  The three parts are
kept separate; distinct parts give distinct names exactly as distinct hash
tokens give distinct strings in the source. -/
structure HName where
  tag : String
  token : Nat
  lvl : Option Nat
deriving DecidableEq, Repr

/-- A dask graph key: either a bare name (a singleton task, like the final
aggregate) or a pair `(name, partition-index)`. -/
inductive Key where
  | bare (n : HName)
  | part (n : HName) (i : Nat)
deriving DecidableEq, Repr

/-- The binary operators wrapped by `BinaryOp` in the source
(`operator.iadd`, `operator.imul`, `operator.itruediv`). -/
inductive OpKind where
  | iadd
  | imul
  | itruediv
deriving DecidableEq, Repr

/-- Elementwise application of a wrapped operator on histogram contents. -/
def applyOp : OpKind → ℚ → ℚ → ℚ
  | .iadd, x, y => x + y
  | .imul, x, y => x * y
  | .itruediv, x, y => x / y

/-- A task argument: either a key referencing another task's output or an
embedded scalar literal. -/
inductive TaskArg where
  | keyArg (k : Key)
  | litArg (q : ℚ)
deriving DecidableEq, Repr

/-- A task descriptor stored in a graph.
`fill ndim i` is a blockwise fill node `( _blocked_sa, partition i )` over
data whose per-partition rank is `ndim`;
`aggregate ks isLast` is `(empty_safe_aggregate, sum, ks, isLast)`;
`binop op a b` is the node `(self.func, k1, k2)` built by `BinaryOp.__call__`. -/
inductive HTask where
  | fill (ndim : Nat) (i : Nat)
  | aggregate (ks : List Key) (isLast : Bool)
  | binop (op : OpKind) (a b : TaskArg)
deriving DecidableEq, Repr

/-- A graph layer: an insertion-ordered mapping from keys to tasks. -/
abbrev Graph := List (Key × HTask)

/-- Python `sum` over a list of partial histograms: a left fold starting from
`0`, with `0 + h = h` for histogram addition. -/
def pySum (l : List ℚ) : ℚ := l.foldl (· + ·) 0

/-- dask's `partition_all(n, seq)`: consecutive chunks of size `n`, only the
last chunk possibly shorter; with `n = 0` it yields no chunks at all. -/
def partitionAll {α : Type} (F : Nat) : List α → List (List α)
  | [] => []
  | x :: xs =>
    if F = 0 then []
    else (x :: xs).take F :: partitionAll F ((x :: xs).drop F)
termination_by l => l.length
decreasing_by
  simp only [List.length_drop, List.length_cons]
  omega

/-- The `split_every` argument of `_reduction`: `None`, `False`, or an integer. -/
inductive SEArg where
  | sNone
  | sFalse
  | sVal (k : Nat)
deriving DecidableEq, Repr

/-- Resolution of `split_every` at the top of `_reduction`:
`None` defaults to 4, `False` becomes the partition count. -/
def resolveSE (npartitions : Nat) : SEArg → Nat
  | .sNone => 4
  | .sFalse => npartitions
  | .sVal k => k

/-- `PartitionedHistogram`: a graph, a base name, a partition count and a
reference descriptor. -/
structure PartitionedHistogram where
  dsk : Graph
  name : HName
  npartitions : Nat
  histref : Histref
deriving DecidableEq, Repr

/-- `AggHistogram`: a graph, a singleton key and a reference descriptor. -/
structure AggHistogram where
  dsk : Graph
  key : HName
  histref : Histref
deriving DecidableEq, Repr

/-- Injective flat encoding of a list of naturals (used to model content
hashing of structured inputs). -/
def encL : List Nat → Nat
  | [] => 0
  | x :: xs => Nat.pair x (encL xs) + 1

/-- Encoding of an integer into a natural. -/
def encInt : Int → Nat
  | .ofNat n => 2 * n
  | .negSucc n => 2 * n + 1

/-- Encoding of a string (used for the tag part of a name). -/
def encStr (s : String) : Nat := encL (s.data.map Char.toNat)

/-- Encoding of an optional natural. -/
def encOpt : Option Nat → Nat
  | none => 0
  | some n => n + 1

/-- Encoding of a name, as hashed when a collection's deterministic token
(its `__dask_tokenize__`, which returns `self.name`) enters `tokenize`. -/
def encHName (n : HName) : Nat :=
  Nat.pair (encStr n.tag) (Nat.pair n.token (encOpt n.lvl))

/-- Encoding of one axis. -/
def encAxis (a : Axis) : Nat := Nat.pair a.extent (encL (a.edges.map encInt))

/-- Numeric code of a storage kind. -/
def storageCode : Storage → Nat
  | .Double => 0
  | .Int64 => 1
  | .AtomicInt64 => 2
  | .Weight => 3
  | .Mean => 4
  | .WeightedMean => 5
  | .Unlimited => 6

/-- Encoding of a reference descriptor. -/
def encHistref (h : Histref) : Nat :=
  Nat.pair (encL (h.axes.map encAxis)) (storageCode h.storage)

/-- Modelled from the spec: `tokenize` (from `dask.base`, an external
collaborator) is the deterministic content hash; the spec's Content Identity
contract requires identical inputs to yield identical names and any changed
input to yield a different name, so it is modelled as an injective pairing of
its three inputs. -/
def tokenize3 (a b c : Nat) : Nat := Nat.pair a (Nat.pair b c)

/-- Modelled from the spec: two-argument form of the content hash, used by
`BinaryOp.__call__` as `tokenize(a, b)`. -/
def tokenize2 (a b : Nat) : Nat := Nat.pair a b

/-- Identity of the builtin `sum` combine operator as a hash input. -/
def sumOpId : Nat := 0

/-- The name `"hist-on-block-{tokenize(data, histref, weights)}"` given to the
partitioned collection by `_reduced_histogram`. -/
def onBlockName (dataId : Nat) (h : Histref) (w : Option Nat) : HName :=
  ⟨"hist-on-block", tokenize3 dataId (encHistref h) (encOpt w), none⟩

/-- The name `fmt = f"hist-aggregate-{tokenize(ph, sum, split_every)}"`
computed by `_reduction`; `ph` tokenizes to its name. -/
def aggregateName (phName : HName) (op : Nat) (se : Nat) : HName :=
  ⟨"hist-aggregate", tokenize3 (encHName phName) op se, none⟩

/-- State of the `while k > split_every` loop in `_reduction`:
current node count `k`, current level base name `b`, level index `d`,
and the graph layer `dsk` built so far. -/
structure LoopState where
  k : Nat
  b : HName
  d : Nat
  dsk : Graph
deriving DecidableEq, Repr

/-- One execution of the `_reduction` while loop, with explicit fuel.
`none` means the call does not return normally within `fuel` iterations
(for `split_every = 1` and more than one partition the loop makes no
progress, so every fuel bound is exhausted; for `split_every = 0` the
`for` body never runs and the following `k = i + 1` raises an unbound
local error, also modelled as `none`). -/
def reductionLoop (fmt : HName) (se : Nat) : Nat → LoopState → Option LoopState
  | 0, st => if se < st.k then none else some st
  | fuel + 1, st =>
    if se < st.k then
      let gs := partitionAll se (List.range st.k)
      if gs.length = 0 then none
      else
        let c : HName := ⟨fmt.tag, fmt.token, some st.d⟩
        let lvl := gs.enum.map
          (fun p => (Key.part c p.1, HTask.aggregate (p.2.map (Key.part st.b)) false))
        reductionLoop fmt se fuel ⟨gs.length, c, st.d + 1, st.dsk ++ lvl⟩
    else some st

/-- Initial loop state of `_reduction`: `k = ph.npartitions`, `b = ph.name`,
`d = 0`, `dsk = {}`. -/
def initState (ph : PartitionedHistogram) : LoopState :=
  ⟨ph.npartitions, ph.name, 0, []⟩

/-- The tail of `_reduction` after the loop: the final aggregate task is
stored at `(fmt, 0)`, then re-keyed to the bare name by
`dsk[fmt] = dsk.pop((fmt, 0))`, and the result graph is the partitioned
collection's graph merged with the new layer
(`HighLevelGraph.from_collections(fmt, dsk, dependencies=[ph])`). -/
def reductionFinish (fmt : HName) (ph : PartitionedHistogram) (st : LoopState) :
    AggHistogram :=
  let finalTask := HTask.aggregate ((List.range st.k).map (Key.part st.b)) true
  let dsk1 := st.dsk ++ [(Key.part fmt 0, finalTask)]
  let dsk2 := dsk1.filter (fun e => !(e.1 == Key.part fmt 0)) ++
    [(Key.bare fmt, finalTask)]
  ⟨ph.dsk ++ dsk2, fmt, ph.histref⟩

/-- `_reduction(ph, split_every)` with explicit fuel for the level loop. -/
def reductionFuel (fuel : Nat) (ph : PartitionedHistogram) (se : SEArg) :
    Option AggHistogram :=
  let sev := resolveSE ph.npartitions se
  let fmt := aggregateName ph.name sumOpId sev
  (reductionLoop fmt sev fuel (initState ph)).map (reductionFinish fmt ph)

/-- One partitioned data source: its content identity (what `tokenize(data)`
hashes), its partition count, and the rank (`ndim`) of each partition. -/
structure DataColl where
  idNat : Nat
  npartitions : Nat
  ndim : Nat
deriving DecidableEq, Repr

/-- The leaf layer built by `partitionwise(_blocked_sa, name, x, histref=...)`:
one fill task per partition, keyed `(name, i)`.  The task records the data
rank because `_blocked_sa` branches on `sample.ndim` when it runs. -/
def leafDsk (nm : HName) (ndim : Nat) (n : Nat) : Graph :=
  (List.range n).map (fun i => (Key.part nm i, HTask.fill ndim i))

/-- The `PartitionedHistogram` built inside `_reduced_histogram` for a single
non-dataframe data argument.  No rank validation happens here: the graph is
built for any `data.ndim`. -/
def partitionedOf (data : DataColl) (histref : Histref) (w : Option Nat) :
    PartitionedHistogram :=
  let name := onBlockName data.idNat histref w
  ⟨leafDsk name data.ndim data.npartitions, name, data.npartitions, histref⟩

/-- `_reduced_histogram(data, histref=..., weights=..., split_every=...)`
restricted to the single-argument array path, with explicit loop fuel:
build the partitioned collection, then `ph.reduced(split_every)`. -/
def reducedHistogramFuel (fuel : Nat) (data : DataColl) (histref : Histref)
    (w : Option Nat) (se : SEArg) : Option AggHistogram :=
  reductionFuel fuel (partitionedOf data histref w) se

/-- Lookup of a key in an evaluation environment (insertion order, first hit). -/
def lookupKey (ρ : List (Key × ℚ)) (k : Key) : Option ℚ :=
  match ρ with
  | [] => none
  | e :: rest => if e.1 = k then some e.2 else lookupKey rest k

/-- Lookup of every key of a task's argument list; fails if any is missing. -/
def lookupAll (ρ : List (Key × ℚ)) : List Key → Option (List ℚ)
  | [] => some []
  | k :: ks =>
    match lookupKey ρ k, lookupAll ρ ks with
    | some v, some vs => some (v :: vs)
    | _, _ => none

/-- Value of a task argument of a `BinaryOp` node. -/
def argVal (ρ : List (Key × ℚ)) : TaskArg → Option ℚ
  | .keyArg k => lookupKey ρ k
  | .litArg q => some q

/-- Execution of one task.  `fill` models `_blocked_sa`: it fills from the
partition when the sample rank is 1 or 2 and raises
`ValueError("Data must be one or two dimensional.")` (modelled as `none`)
otherwise; the environment `env` gives the local accumulator's result for
each partition.  `aggregate` models `empty_safe_aggregate(sum, parts, _)`,
a fold of the looked-up parts with histogram addition starting from 0. -/
def evalTask (env : Nat → ℚ) (ρ : List (Key × ℚ)) : HTask → Option ℚ
  | .fill ndim i => if ndim = 1 ∨ ndim = 2 then some (env i) else none
  | .aggregate ks _ => (lookupAll ρ ks).map pySum
  | .binop op a b =>
    match argVal ρ a, argVal ρ b with
    | some x, some y => some (applyOp op x y)
    | _, _ => none

/-- Execution of a graph layer in insertion order (the layers below are built
leaves first, so every referenced key is already evaluated); a failing task
aborts the computation, as a raised error does under the scheduler. -/
def evalGraphAux (env : Nat → ℚ) : Graph → List (Key × ℚ) → Option (List (Key × ℚ))
  | [], ρ => some ρ
  | (k, t) :: rest, ρ =>
    match evalTask env ρ t with
    | some v => evalGraphAux env rest (ρ ++ [(k, v)])
    | none => none

/-- Execution of a whole graph from an empty environment. -/
def evalGraph (env : Nat → ℚ) (g : Graph) : Option (List (Key × ℚ)) :=
  evalGraphAux env g []

/-- `_finalize_partitioned_histogram` (core.py): returns its input unchanged. -/
def finalize_partitioned_histogram (results : List ℚ) : List ℚ := results

/-- dask.bag's `finalize_item`, the post-compute step `AggHistogram` inherits
from `db.Item`: `results[0]`, an out-of-range index being an error. -/
def finalize_item (results : List ℚ) : Option ℚ := results.head?

/-- Computing an `AggHistogram`: run its graph, gather the value of its sole
key `[self.key]`, and apply the item finalizer. -/
def computeAgg (env : Nat → ℚ) (agg : AggHistogram) : Option ℚ :=
  (evalGraph env agg.dsk).bind
    (fun ρ => (lookupAll ρ [Key.bare agg.key]).bind finalize_item)

/-- The key list `__dask_keys__` of a partitioned collection:
`[(name, i) for i in range(npartitions)]`. -/
def phKeys (ph : PartitionedHistogram) : List Key :=
  (List.range ph.npartitions).map (Key.part ph.name)

/-- Computing a `PartitionedHistogram`: run its graph, gather the values of
its partition keys, and apply `_finalize_partitioned_histogram`
(`__dask_postcompute__`). -/
def computePartitioned (env : Nat → ℚ) (ph : PartitionedHistogram) :
    Option (List ℚ) :=
  (evalGraph env ph.dsk).bind
    (fun ρ => (lookupAll ρ (phKeys ph)).map finalize_partitioned_histogram)

/-- Result of `to_dask_array`: content shape, whether the content dtype is
integral, and the per-axis edge arrays. -/
structure DaskArrayOut where
  shape : List Nat
  dtypeIsInt : Bool
  edges : List (List Int)
deriving DecidableEq, Repr

/-- `to_dask_array(agghist, flow, dd)`: shape is `histref.shape`, expanded by
2 per axis when `flow` is set; dtype is `int` exactly when the storage type is
`Int64` or `AtomicInt64`, else `float`; one edge array per axis from
`ax.edges`.  (The `dd` flag only changes the return tuple layout.) -/
def to_dask_array (agghist : AggHistogram) (flow : Bool) : DaskArrayOut :=
  let shape0 := agghist.histref.axes.map (fun a => a.extent)
  let shape := if flow then shape0.map (fun i => i + 2) else shape0
  let intStorage :=
    agghist.histref.storage = Storage.Int64 ∨
      agghist.histref.storage = Storage.AtomicInt64
  ⟨shape, decide intStorage, agghist.histref.axes.map (fun a => a.edges)⟩

/-- An operand of `BinaryOp.__call__`: a reference to an `AggHistogram`
object on the heap, or a plain scalar. -/
inductive Operand where
  | ref (i : Nat)
  | scalar (q : ℚ)
deriving DecidableEq, Repr

/-- The object heap: `AggHistogram` objects indexed by identity.  Binary
operator construction allocates new objects on it and must never change an
existing one. -/
abbrev Heap := List (Nat × AggHistogram)

/-- Heap lookup by object identity. -/
def Heap.lookup (σ : Heap) (i : Nat) : Option AggHistogram :=
  match σ with
  | [] => none
  | e :: rest => if e.1 = i then some e.2 else Heap.lookup rest i

/-- A fresh identity: one past the largest identity on the heap. -/
def freshId (σ : Heap) : Nat := σ.foldl (fun m e => max m e.1) 0 + 1

/-- Encoding of a scalar operand as a hash input. -/
def encRat (q : ℚ) : Nat := Nat.pair (encInt q.num) q.den

/-- Hash input of one operand of `BinaryOp.__call__`: a collection
contributes its `__dask_tokenize__` (its key name), a scalar its value. -/
def operandTok (σ : Heap) : Operand → Option Nat
  | .ref i => (σ.lookup i).map (fun o => encHName o.key)
  | .scalar q => some (encRat q)

/-- The graph contributed by one operand: a collection's own graph
(registered as a dependency in `HighLevelGraph.from_collections`),
nothing for a scalar. -/
def operandGraph (σ : Heap) : Operand → Option Graph
  | .ref i => (σ.lookup i).map (fun o => o.dsk)
  | .scalar _ => some []

/-- The task argument embedded for one operand: a collection's key
(`a.__dask_tokenize__()` returns `self.key`), a scalar as a literal. -/
def operandArg (σ : Heap) : Operand → Option TaskArg
  | .ref i => (σ.lookup i).map (fun o => TaskArg.keyArg (Key.bare o.key))
  | .scalar q => some (TaskArg.litArg q)

/-- The `ref = a.histref` / `except AttributeError: ref = b.histref` step:
a scalar has no `histref` attribute, so if neither operand is a collection
the second attribute access raises an uncaught `AttributeError`. -/
def operandHistref (σ : Heap) : Operand → Option Histref
  | .ref i => (σ.lookup i).map (fun o => o.histref)
  | .scalar _ => none

/-- A `BinaryOp` instance: the wrapped operator and its display name
(`"add"`, `"mul"`, `"div"`). -/
structure BinaryOpDef where
  op : OpKind
  opname : String
deriving DecidableEq, Repr

/-- `BinaryOp.__call__(a, b)`: derive the node name from
`"{name}-hist-{tokenize(a, b)}"`, register collection operands as
dependencies, take the reference descriptor from `a` if it is a collection,
else from `b`, else raise (`none`); allocate the new `AggHistogram` at a
fresh identity.  Nothing already on the heap is written. -/
def binary_op_call (b : BinaryOpDef) (σ : Heap) (x y : Operand) :
    Option (Heap × Nat) :=
  match operandTok σ x, operandTok σ y, operandGraph σ x, operandGraph σ y,
      operandArg σ x, operandArg σ y with
  | some tx, some ty, some gx, some gy, some ax, some ay =>
    let name : HName := ⟨b.opname ++ "-hist", tokenize2 tx ty, none⟩
    match operandHistref σ x with
    | some r =>
      some (σ ++ [(freshId σ, ⟨gx ++ gy ++ [(Key.bare name, HTask.binop b.op ax ay)], name, r⟩)], freshId σ)
    | none =>
      match operandHistref σ y with
      | some r =>
        some (σ ++ [(freshId σ, ⟨gx ++ gy ++ [(Key.bare name, HTask.binop b.op ax ay)], name, r⟩)], freshId σ)
      | none => none
  | _, _, _, _, _, _ => none

/-- The module-level operator instances `_iadd`, `_imul`, `_itruediv`;
`AggHistogram.__iadd__`, `__add__`, `__radd__` all call `_iadd`, and
similarly for the other spellings, so the in-place forms construct a new
collection exactly as the plain forms do. -/
def iaddOp : BinaryOpDef := ⟨OpKind.iadd, "add"⟩

/-- The `_imul` instance. -/
def imulOp : BinaryOpDef := ⟨OpKind.imul, "mul"⟩

/-- The `_itruediv` instance. -/
def itruedivOp : BinaryOpDef := ⟨OpKind.itruediv, "div"⟩

/-- Ceiling division, the per-level node count `len(partition_all(F, range(k)))`. -/
def ceilDiv (k F : Nat) : Nat := (k + F - 1) / F

/-- Number of iterations of the `while k > split_every` loop of `_reduction`
before the node count drops to at most `F`. -/
def iterCount (F k : Nat) : Nat :=
  if h : 2 ≤ F ∧ F < k then iterCount F (ceilDiv k F) + 1 else 0
termination_by k
decreasing_by
  have hF : 2 ≤ F := h.1
  have hk : F < k := h.2
  have h2 : 2 * k ≤ F * k := Nat.mul_le_mul_right k hF
  have h3 : k + F - 1 < F * k := by omega
  exact Nat.div_lt_of_lt_mul h3

/-- The node count when the loop exits. -/
def finalK (F k : Nat) : Nat :=
  if h : 2 ≤ F ∧ F < k then finalK F (ceilDiv k F) else k
termination_by k
decreasing_by
  have hF : 2 ≤ F := h.1
  have hk : F < k := h.2
  have h2 : 2 * k ≤ F * k := Nat.mul_le_mul_right k hF
  have h3 : k + F - 1 < F * k := by omega
  exact Nat.div_lt_of_lt_mul h3

/-- One pass of the `_reduction` while-loop body: partition the current
level's `k` keys into consecutive groups, key each group's combine node
`(c, i)` at the next level, and continue with `k = i + 1` groups. -/
def stepState (fmt : HName) (se : Nat) (st : LoopState) : LoopState :=
  let gs := partitionAll se (List.range st.k)
  let c : HName := ⟨fmt.tag, fmt.token, some st.d⟩
  let lvl := gs.enum.map
    (fun p => (Key.part c p.1, HTask.aggregate (p.2.map (Key.part st.b)) false))
  ⟨gs.length, c, st.d + 1, st.dsk ++ lvl⟩

/-- Lookup of a key's task in a graph layer. -/
def lookupTask (g : Graph) (k : Key) : Option HTask :=
  match g with
  | [] => none
  | e :: rest => if e.1 = k then some e.2 else lookupTask rest k

/-- A small name for hand-built collections in concrete instances. -/
def nmX : HName := ⟨"x", 0, none⟩

/-- A small one-axis descriptor. -/
def href1 : Histref := ⟨[⟨2, [0, 1, 2]⟩], Storage.Double⟩

/-- A hand-built partitioned collection with one partition of rank-1 data. -/
def ph1 : PartitionedHistogram := ⟨leafDsk nmX 1 1, nmX, 1, href1⟩

/-- A hand-built partitioned collection with two partitions of rank-1 data. -/
def ph2 : PartitionedHistogram := ⟨leafDsk nmX 1 2, nmX, 2, href1⟩

/-- A hand-built partitioned collection with twenty partitions. -/
def ph20 : PartitionedHistogram := ⟨leafDsk nmX 1 20, nmX, 20, href1⟩

/-- A concrete local-fill environment: partition 0 fills to 1, others to 2. -/
def env0 : Nat → ℚ := fun i => if i = 0 then 1 else 2

/-- A rank-3 single-partition data source (invalid rank for `_blocked_sa`). -/
def d3 : DataColl := ⟨0, 1, 3⟩

/-- A hand-built aggregated collection used as a heap object. -/
def aggA : AggHistogram := ⟨[(Key.bare nmX, HTask.aggregate [] true)], nmX, href1⟩

/-- A one-object heap. -/
def heap0 : Heap := [(0, aggA)]

/-- Edge array of a regular axis with `n` bins: `n + 1` boundary values. -/
def edgesOf (n : Nat) : List Int := (List.range (n + 1)).map Int.ofNat

/-- A two-axis descriptor with extents `(10, 20)`. -/
def href1020 : Histref :=
  ⟨[⟨10, edgesOf 10⟩, ⟨20, edgesOf 20⟩], Storage.Double⟩

/-- An aggregated collection over the `(10, 20)` descriptor. -/
def agg1020 : AggHistogram := ⟨[], nmX, href1020⟩

/-! Helper lemmas: the chunking `partition_all`, the loop measures, and the
reduction loop itself. -/

theorem partitionAll_nil {α : Type} (F : Nat) :
    partitionAll F ([] : List α) = [] := by
  simp [partitionAll]

theorem partitionAll_cons {α : Type} {F : Nat} (hF : F ≠ 0) (x : α) (xs : List α) :
    partitionAll F (x :: xs) =
      (x :: xs).take F :: partitionAll F ((x :: xs).drop F) := by
  rw [partitionAll]
  simp [hF]

theorem partitionAll_eq_nil_iff {α : Type} {F : Nat} (hF : F ≠ 0) (l : List α) :
    partitionAll F l = [] ↔ l = [] := by
  cases l with
  | nil => simp [partitionAll_nil]
  | cons x xs => simp [partitionAll_cons hF]

theorem partitionAll_join_aux {α : Type} {F : Nat} (hF : F ≠ 0) :
    ∀ (n : Nat) (l : List α), l.length ≤ n → (partitionAll F l).flatten = l := by
  intro n
  induction n with
  | zero =>
    intro l hl
    have hnil : l = [] := List.eq_nil_of_length_eq_zero (by omega)
    subst hnil
    simp [partitionAll_nil]
  | succ n ih =>
    intro l hl
    cases l with
    | nil => simp [partitionAll_nil]
    | cons x xs =>
      simp only [List.length_cons] at hl
      rw [partitionAll_cons hF, List.flatten_cons]
      rw [ih ((x :: xs).drop F) (by simp only [List.length_drop, List.length_cons]; omega)]
      exact List.take_append_drop F (x :: xs)

theorem partitionAll_join {α : Type} {F : Nat} (hF : F ≠ 0) (l : List α) :
    (partitionAll F l).flatten = l :=
  partitionAll_join_aux hF l.length l le_rfl

theorem partitionAll_length_le_aux {α : Type} {F : Nat} :
    ∀ (n : Nat) (l : List α), l.length ≤ n →
      ∀ g ∈ partitionAll F l, g.length ≤ F := by
  intro n
  induction n with
  | zero =>
    intro l hl
    have hnil : l = [] := List.eq_nil_of_length_eq_zero (by omega)
    subst hnil
    simp [partitionAll_nil]
  | succ n ih =>
    intro l hl g hg
    cases l with
    | nil => simp [partitionAll_nil] at hg
    | cons x xs =>
      simp only [List.length_cons] at hl
      by_cases hF : F = 0
      · subst hF; simp [partitionAll] at hg
      · rw [partitionAll_cons hF] at hg
        rcases List.mem_cons.mp hg with h | h
        · subst h
          simp only [List.length_take, List.length_cons]
          omega
        · exact ih ((x :: xs).drop F)
            (by simp only [List.length_drop, List.length_cons]; omega) g h

theorem partitionAll_length_le {α : Type} {F : Nat} (l : List α) :
    ∀ g ∈ partitionAll F l, g.length ≤ F :=
  partitionAll_length_le_aux l.length l le_rfl

theorem partitionAll_dropLast_aux {α : Type} {F : Nat} (hF : F ≠ 0) :
    ∀ (n : Nat) (l : List α), l.length ≤ n →
      ∀ g ∈ (partitionAll F l).dropLast, g.length = F := by
  intro n
  induction n with
  | zero =>
    intro l hl
    have hnil : l = [] := List.eq_nil_of_length_eq_zero (by omega)
    subst hnil
    simp [partitionAll_nil]
  | succ n ih =>
    intro l hl g hg
    cases l with
    | nil => simp [partitionAll_nil] at hg
    | cons x xs =>
      simp only [List.length_cons] at hl
      rw [partitionAll_cons hF] at hg
      rcases hrest : partitionAll F ((x :: xs).drop F) with _ | ⟨r, rs⟩
      · rw [hrest] at hg
        simp at hg
      · rw [hrest] at hg
        rw [List.dropLast_cons₂] at hg
        have hdrop : (x :: xs).drop F ≠ [] := by
          intro hd
          rw [(partitionAll_eq_nil_iff hF _).mpr hd] at hrest
          exact List.noConfusion hrest
        have hlen : F < (x :: xs).length := by
          by_contra hle
          exact hdrop (List.drop_eq_nil_of_le (by omega))
        rcases List.mem_cons.mp hg with h | h
        · subst h
          simp only [List.length_take, List.length_cons]
          simp only [List.length_cons] at hlen
          omega
        · rw [← hrest] at h
          exact ih ((x :: xs).drop F)
            (by simp only [List.length_drop, List.length_cons]; omega) g h

theorem partitionAll_dropLast {α : Type} {F : Nat} (hF : F ≠ 0) (l : List α) :
    ∀ g ∈ (partitionAll F l).dropLast, g.length = F :=
  partitionAll_dropLast_aux hF l.length l le_rfl

theorem partitionAll_length_aux {α : Type} {F : Nat} (hF : F ≠ 0) :
    ∀ (n : Nat) (l : List α), l.length ≤ n →
      (partitionAll F l).length = (l.length + F - 1) / F := by
  intro n
  induction n with
  | zero =>
    intro l hl
    have hnil : l = [] := List.eq_nil_of_length_eq_zero (by omega)
    subst hnil
    rw [partitionAll_nil]
    simp only [List.length_nil]
    rw [Nat.div_eq_of_lt (by omega)]
  | succ n ih =>
    intro l hl
    cases l with
    | nil =>
      rw [partitionAll_nil]
      simp only [List.length_nil]
      rw [Nat.div_eq_of_lt (by omega)]
    | cons x xs =>
      simp only [List.length_cons] at hl
      rw [partitionAll_cons hF]
      rw [List.length_cons]
      rw [ih ((x :: xs).drop F) (by simp only [List.length_drop, List.length_cons]; omega)]
      simp only [List.length_drop, List.length_cons]
      by_cases hle : xs.length + 1 ≤ F
      · have h1 : xs.length + 1 - F = 0 := by omega
        rw [h1]
        have h2 : (0 + F - 1) / F = 0 := Nat.div_eq_of_lt (by omega)
        rw [h2]
        have h3 : (xs.length + 1 + F - 1) / F = 1 :=
          Nat.div_eq_of_lt_le (by omega) (by omega)
        omega
      · have h1 : xs.length + 1 - F + F - 1 = xs.length + 1 - 1 := by omega
        rw [h1]
        have h2 : xs.length + 1 + F - 1 = (xs.length + 1 - 1) + F := by omega
        rw [h2]
        rw [Nat.add_div_right _ (by omega : 0 < F)]

theorem partitionAll_length {α : Type} {F : Nat} (hF : F ≠ 0) (l : List α) :
    (partitionAll F l).length = (l.length + F - 1) / F :=
  partitionAll_length_aux hF l.length l le_rfl

theorem ceilDiv_lt {F k : Nat} (hF : 2 ≤ F) (hk : F < k) : ceilDiv k F < k := by
  have h2 : 2 * k ≤ F * k := Nat.mul_le_mul_right k hF
  exact Nat.div_lt_of_lt_mul (by omega)

theorem ceilDiv_pos {F k : Nat} (hF : 1 ≤ F) (hk : 1 ≤ k) : 1 ≤ ceilDiv k F := by
  unfold ceilDiv
  rw [Nat.le_div_iff_mul_le (by omega)]
  omega

theorem two_le_ceilDiv {F k : Nat} (hF : 1 ≤ F) (hk : F < k) : 2 ≤ ceilDiv k F := by
  unfold ceilDiv
  rw [Nat.le_div_iff_mul_le (by omega)]
  omega

theorem iterCount_of_lt {F k : Nat} (hF : 2 ≤ F) (hk : F < k) :
    iterCount F k = iterCount F (ceilDiv k F) + 1 := by
  rw [iterCount]
  rw [dif_pos ⟨hF, hk⟩]

theorem iterCount_of_le {F k : Nat} (hk : k ≤ F) : iterCount F k = 0 := by
  rw [iterCount]
  rw [dif_neg (fun hc => absurd hk (by omega))]

theorem finalK_of_lt {F k : Nat} (hF : 2 ≤ F) (hk : F < k) :
    finalK F k = finalK F (ceilDiv k F) := by
  rw [finalK]
  rw [dif_pos ⟨hF, hk⟩]

theorem finalK_of_le {F k : Nat} (hk : k ≤ F) : finalK F k = k := by
  rw [finalK]
  rw [dif_neg (fun hc => absurd hk (by omega))]

theorem finalK_le {F : Nat} (hF : 2 ≤ F) : ∀ k, finalK F k ≤ F := by
  intro k
  induction k using Nat.strong_induction_on with
  | _ k ih =>
    by_cases hk : F < k
    · rw [finalK_of_lt hF hk]
      exact ih (ceilDiv k F) (ceilDiv_lt hF hk)
    · rw [finalK_of_le (by omega)]
      omega

theorem finalK_pos {F : Nat} (hF : 2 ≤ F) : ∀ k, 1 ≤ k → 1 ≤ finalK F k := by
  intro k
  induction k using Nat.strong_induction_on with
  | _ k ih =>
    intro hk1
    by_cases hk : F < k
    · rw [finalK_of_lt hF hk]
      exact ih (ceilDiv k F) (ceilDiv_lt hF hk) (ceilDiv_pos (by omega) hk1)
    · rw [finalK_of_le (by omega)]
      omega

theorem iterCount_add_one_eq_clog {F : Nat} (hF : 2 ≤ F) :
    ∀ k, 2 ≤ k → iterCount F k + 1 = Nat.clog F k := by
  intro k
  induction k using Nat.strong_induction_on with
  | _ k ih =>
    intro hk2
    by_cases hk : F < k
    · rw [iterCount_of_lt hF hk]
      rw [Nat.clog_of_two_le (by omega) hk2]
      have hrec := ih (ceilDiv k F) (ceilDiv_lt hF hk)
        (two_le_ceilDiv (by omega) hk)
      have harg : (k + F - 1) / F = ceilDiv k F := rfl
      rw [harg]
      omega
    · rw [iterCount_of_le (by omega)]
      rw [Nat.clog_eq_one hk2 (by omega)]

theorem reductionLoop_exit {fmt : HName} {se : Nat} {st : LoopState}
    (h : ¬ se < st.k) (fuel : Nat) :
    reductionLoop fmt se fuel st = some st := by
  cases fuel with
  | zero => simp [reductionLoop, h]
  | succ n => simp [reductionLoop, h]

theorem reductionLoop_step {fmt : HName} {se : Nat} {st : LoopState} {fuel : Nat}
    (h : se < st.k) (hne : (partitionAll se (List.range st.k)).length ≠ 0) :
    reductionLoop fmt se (fuel + 1) st = reductionLoop fmt se fuel (stepState fmt se st) := by
  simp only [reductionLoop, stepState]
  rw [if_pos h, if_neg hne]

theorem reductionLoop_spec {fmt : HName} {F : Nat} (hF : 2 ≤ F) :
    ∀ k fuel (st : LoopState), st.k = k → k ≤ fuel →
      ∃ st2, reductionLoop fmt F fuel st = some st2 ∧
        st2.k = finalK F k ∧ st2.d = st.d + iterCount F k := by
  intro k
  induction k using Nat.strong_induction_on with
  | _ k ih =>
    intro fuel st hk hfuel
    subst hk
    by_cases hFk : F < st.k
    · have hk3 : 3 ≤ st.k := by omega
      cases fuel with
      | zero => omega
      | succ f =>
        have hlen : (partitionAll F (List.range st.k)).length = ceilDiv st.k F := by
          rw [partitionAll_length (by omega : F ≠ 0)]
          rw [List.length_range]
          rfl
        have hpos : 1 ≤ ceilDiv st.k F := ceilDiv_pos (by omega) (by omega)
        rw [reductionLoop_step hFk (by omega)]
        have hstep : (stepState fmt F st).k = ceilDiv st.k F := by
          simp only [stepState]
          exact hlen
        have hlt : ceilDiv st.k F < st.k := ceilDiv_lt hF hFk
        obtain ⟨st2, h1, h2, h3⟩ := ih (ceilDiv st.k F) hlt f (stepState fmt F st)
          hstep (by omega)
        refine ⟨st2, h1, ?_, ?_⟩
        · rw [h2, finalK_of_lt hF hFk]
        · have hd : (stepState fmt F st).d = st.d + 1 := by simp [stepState]
          rw [h3, hd, iterCount_of_lt hF hFk]
          omega
    · refine ⟨st, reductionLoop_exit hFk fuel, ?_, ?_⟩
      · rw [finalK_of_le (by omega)]
      · rw [iterCount_of_le (by omega)]
        omega

theorem reductionLoop_stuck {fmt : HName} :
    ∀ fuel (st : LoopState), st.k = 2 → reductionLoop fmt 1 fuel st = none := by
  intro fuel
  induction fuel with
  | zero =>
    intro st h
    simp [reductionLoop, h]
  | succ n ih =>
    intro st h
    have hlt : (1 : Nat) < st.k := by omega
    have hg : partitionAll 1 (List.range st.k) = [[0], [1]] := by
      rw [h]
      have h0 : List.range 2 = [0, 1] := by decide
      rw [h0]
      rw [partitionAll_cons Nat.one_ne_zero]
      simp only [List.take_succ_cons, List.take_zero, List.drop_succ_cons, List.drop_zero]
      rw [partitionAll_cons Nat.one_ne_zero]
      simp only [List.take_succ_cons, List.take_zero, List.drop_succ_cons, List.drop_zero]
      rw [partitionAll_nil]
    rw [reductionLoop_step hlt (by rw [hg]; simp)]
    apply ih
    simp [stepState, hg]

theorem Heap.lookup_append_of_some {σ : Heap} {i : Nat} {o : AggHistogram}
    (h : Heap.lookup σ i = some o) (τ : Heap) :
    Heap.lookup (σ ++ τ) i = some o := by
  induction σ with
  | nil => simp [Heap.lookup] at h
  | cons e rest ih =>
    rw [List.cons_append]
    rw [Heap.lookup] at h ⊢
    by_cases he : e.1 = i
    · rw [if_pos he] at h ⊢
      exact h
    · rw [if_neg he] at h ⊢
      exact ih h

theorem Heap.lookup_append_of_none {σ : Heap} {i : Nat}
    (h : Heap.lookup σ i = none) (o : AggHistogram) :
    Heap.lookup (σ ++ [(i, o)]) i = some o := by
  induction σ with
  | nil => simp [Heap.lookup]
  | cons e rest ih =>
    rw [Heap.lookup] at h
    rw [List.cons_append, Heap.lookup]
    by_cases he : e.1 = i
    · rw [if_pos he] at h
      exact absurd h (by simp)
    · rw [if_neg he] at h ⊢
      exact ih h

theorem foldl_max_le_init (σ : Heap) :
    ∀ m : Nat, m ≤ σ.foldl (fun a e => max a e.1) m := by
  induction σ with
  | nil => intro m; simp
  | cons e rest ih =>
    intro m
    rw [List.foldl_cons]
    exact le_trans (le_max_left m e.1) (ih (max m e.1))

theorem mem_le_foldl_max (σ : Heap) :
    ∀ (m : Nat) (e : Nat × AggHistogram), e ∈ σ →
      e.1 ≤ σ.foldl (fun a x => max a x.1) m := by
  induction σ with
  | nil => intro m e he; simp at he
  | cons x rest ih =>
    intro m e he
    rw [List.foldl_cons]
    rcases List.mem_cons.mp he with h | h
    · subst h
      exact le_trans (le_max_right m e.1) (foldl_max_le_init rest (max m e.1))
    · exact ih (max m x.1) e h

theorem Heap.lookup_none_of_gt {σ : Heap} {i : Nat} (h : ∀ e ∈ σ, e.1 < i) :
    Heap.lookup σ i = none := by
  induction σ with
  | nil => rfl
  | cons e rest ih =>
    rw [Heap.lookup]
    rw [if_neg (by have := h e (List.mem_cons_self e rest); omega)]
    exact ih (fun x hx => h x (List.mem_cons_of_mem e hx))

theorem Heap.lookup_freshId (σ : Heap) : Heap.lookup σ (freshId σ) = none := by
  apply Heap.lookup_none_of_gt
  intro e he
  have := mem_le_foldl_max σ 0 e he
  unfold freshId
  omega

theorem encL_injective : Function.Injective encL := by
  intro l1
  induction l1 with
  | nil =>
    intro l2 h
    cases l2 with
    | nil => rfl
    | cons y ys => simp [encL] at h
  | cons x xs ih =>
    intro l2 h
    cases l2 with
    | nil => simp [encL] at h
    | cons y ys =>
      simp only [encL, Nat.add_right_cancel_iff] at h
      obtain ⟨h1, h2⟩ := Nat.pair_eq_pair.mp h
      rw [h1, ih h2]

theorem encInt_injective : Function.Injective encInt := by
  intro a b h
  cases a with
  | ofNat m =>
    cases b with
    | ofNat n =>
      simp only [encInt] at h
      exact congrArg Int.ofNat (by omega)
    | negSucc n =>
      simp only [encInt] at h
      exact absurd h (by omega)
  | negSucc m =>
    cases b with
    | ofNat n =>
      simp only [encInt] at h
      exact absurd h (by omega)
    | negSucc n =>
      simp only [encInt] at h
      exact congrArg Int.negSucc (by omega)

theorem encOpt_injective : Function.Injective encOpt := by
  intro a b h
  cases a with
  | none =>
    cases b with
    | none => rfl
    | some n => simp [encOpt] at h
  | some m =>
    cases b with
    | none => simp [encOpt] at h
    | some n => simp only [encOpt, Nat.add_right_cancel_iff] at h; rw [h]

theorem storageCode_injective : Function.Injective storageCode := by
  intro a b h
  cases a <;> cases b <;> simp_all [storageCode]

theorem encAxis_injective : Function.Injective encAxis := by
  intro a b h
  obtain ⟨h1, h2⟩ := Nat.pair_eq_pair.mp h
  have h3 : a.edges.map encInt = b.edges.map encInt := encL_injective h2
  have h4 : a.edges = b.edges := List.map_injective_iff.mpr encInt_injective h3
  cases a
  cases b
  simp_all

theorem encHistref_injective : Function.Injective encHistref := by
  intro a b h
  obtain ⟨h1, h2⟩ := Nat.pair_eq_pair.mp h
  have h3 : a.axes.map encAxis = b.axes.map encAxis := encL_injective h1
  have h4 : a.axes = b.axes := List.map_injective_iff.mpr encAxis_injective h3
  have h5 : a.storage = b.storage := storageCode_injective h2
  cases a
  cases b
  simp_all

/-- C1: the claim states that a fan-in bound `split_every ≤ 1` is rejected by
`_reduction` with an error raised synchronously at construction time.  The
code has no such check: with one partition and `split_every = 1` the call
returns an `AggHistogram` normally (no error), and with two partitions the
`while k > split_every` loop never decreases `k` (each pass turns the `k`
keys into `k` singleton groups), so the call never returns at all. -/
theorem C1_fan_in_one_not_rejected :
    (reductionFuel 0 ph1 (SEArg.sVal 1)).isSome = true ∧
    ∀ fuel : Nat, reductionFuel fuel ph2 (SEArg.sVal 1) = none := by
  constructor
  · rfl
  · intro fuel
    have h := @reductionLoop_stuck (aggregateName ph2.name sumOpId 1) fuel
      (initState ph2) rfl
    show (reductionLoop (aggregateName ph2.name sumOpId 1) 1 fuel
        (initState ph2)).map (reductionFinish (aggregateName ph2.name sumOpId 1) ph2) =
      none
    rw [h]
    rfl

/-- C6: collection naming is deterministic and content-addressed.  The name
of the aggregated collection is derived from the content hash of the
partitioned collection's name (itself hashed from the data identity, the
reference descriptor and the weights), the combine operator identity and the
fan-in bound: two constructions agree on the name exactly when all of those
inputs agree, so identical inputs give identical identities and changing any
one input changes the identity. -/
theorem C6_deterministic_naming (d1 d2 : Nat) (h1 h2 : Histref)
    (w1 w2 : Option Nat) (op1 op2 se1 se2 : Nat) :
    aggregateName (onBlockName d1 h1 w1) op1 se1 =
        aggregateName (onBlockName d2 h2 w2) op2 se2 ↔
      d1 = d2 ∧ h1 = h2 ∧ w1 = w2 ∧ op1 = op2 ∧ se1 = se2 := by
  constructor
  · intro h
    simp only [aggregateName, HName.mk.injEq, and_true, true_and, tokenize3] at h
    have ha := Nat.pair_eq_pair.mp h
    have hb := Nat.pair_eq_pair.mp ha.2
    have hn : encHName (onBlockName d1 h1 w1) = encHName (onBlockName d2 h2 w2) := ha.1
    simp only [encHName, onBlockName, tokenize3] at hn
    have hp := Nat.pair_eq_pair.mp hn
    have htok := (Nat.pair_eq_pair.mp hp.2).1
    have q := Nat.pair_eq_pair.mp htok
    have q2 := Nat.pair_eq_pair.mp q.2
    exact ⟨q.1, encHistref_injective q2.1, encOpt_injective q2.2, hb.1, hb.2⟩
  · rintro ⟨rfl, rfl, rfl, rfl, rfl⟩
    rfl

/-- C5: for `n ≥ 2` partitions and fan-in `F ≥ 2`, each level's keys are
chunked into consecutive groups of size at most `F` (their concatenation in
order is the level's key list, and only the final group may be smaller); each
group becomes one combine node of the next level, the per-level node count is
`⌈k / F⌉`, the loop stops when a level has at most `F` nodes and that level
collapses into exactly one final aggregate node at the bare key; the total
number of combine levels is `⌈log_F n⌉ = Nat.clog F n`. -/
theorem C5_reduction_tree {F n : Nat} (hF : 2 ≤ F) (hn : 2 ≤ n) :
    (∀ l : List Nat, (partitionAll F l).flatten = l) ∧
    (∀ l : List Nat, ∀ g ∈ partitionAll F l, g.length ≤ F) ∧
    (∀ l : List Nat, ∀ g ∈ (partitionAll F l).dropLast, g.length = F) ∧
    (∀ k : Nat, (partitionAll F (List.range k)).length = (k + F - 1) / F) ∧
    (∀ (ph : PartitionedHistogram) (fuel : Nat), ph.npartitions = n → n ≤ fuel →
      ∃ st2,
        reductionLoop (aggregateName ph.name sumOpId F) F fuel (initState ph) =
            some st2 ∧
        st2.d + 1 = Nat.clog F n ∧
        1 ≤ st2.k ∧ st2.k ≤ F ∧
        reductionFuel fuel ph (SEArg.sVal F) =
          some (reductionFinish (aggregateName ph.name sumOpId F) ph st2) ∧
        (Key.bare (aggregateName ph.name sumOpId F),
            HTask.aggregate ((List.range st2.k).map (Key.part st2.b)) true) ∈
          (reductionFinish (aggregateName ph.name sumOpId F) ph st2).dsk) := by
  have hF0 : F ≠ 0 := by omega
  refine ⟨partitionAll_join hF0, fun l => partitionAll_length_le l,
    partitionAll_dropLast hF0, ?_, ?_⟩
  · intro k
    rw [partitionAll_length hF0, List.length_range]
  · intro ph fuel hph hfuel
    obtain ⟨st2, hl, hk, hd⟩ := reductionLoop_spec hF n fuel (initState ph)
      (by simp [initState, hph]) hfuel
    refine ⟨st2, hl, ?_, ?_, ?_, ?_, ?_⟩
    · have hiter := iterCount_add_one_eq_clog hF n hn
      simp only [initState] at hd
      omega
    · rw [hk]
      exact finalK_pos hF n (by omega)
    · rw [hk]
      exact finalK_le hF n
    · show (reductionLoop (aggregateName ph.name sumOpId F) F fuel
          (initState ph)).map (reductionFinish (aggregateName ph.name sumOpId F) ph) =
        some (reductionFinish (aggregateName ph.name sumOpId F) ph st2)
      rw [hl]
      rfl
    · simp [reductionFinish]

/-- C10: for any partitioned collection and a fan-in argument that resolves
to at least 2 (the default `None → 4`, an explicit bound of at least 2) or to
the partition count itself (`False → n`), `_reduction` terminates: every pass
of the level loop strictly decreases the node count, fuel `n + 1` suffices,
and the returned collection's sole key is the bare aggregate name — the
`(fmt, 0)` task is re-keyed so the graph holds the bare name and no
`(fmt, 0)` key. -/
theorem C10_reduction_terminates (ph : PartitionedHistogram) (se : SEArg)
    (hkeys : ph.dsk.map Prod.fst =
      (List.range ph.npartitions).map (Key.part ph.name))
    (htag : ph.name.tag ≠ "hist-aggregate")
    (hse : 2 ≤ resolveSE ph.npartitions se ∨
      resolveSE ph.npartitions se = ph.npartitions) :
    (∀ k, 2 ≤ resolveSE ph.npartitions se → resolveSE ph.npartitions se < k →
      (partitionAll (resolveSE ph.npartitions se) (List.range k)).length < k) ∧
    ∃ agg, reductionFuel (ph.npartitions + 1) ph se = some agg ∧
      agg.key = aggregateName ph.name sumOpId (resolveSE ph.npartitions se) ∧
      Key.bare agg.key ∈ agg.dsk.map Prod.fst ∧
      Key.part agg.key 0 ∉ agg.dsk.map Prod.fst := by
  constructor
  · intro k h2 hlt
    rw [partitionAll_length (by omega), List.length_range]
    exact ceilDiv_lt h2 hlt
  · have hloop : ∃ st2, reductionLoop
        (aggregateName ph.name sumOpId (resolveSE ph.npartitions se))
        (resolveSE ph.npartitions se) (ph.npartitions + 1) (initState ph) =
          some st2 := by
      rcases hse with h2 | heq
      · obtain ⟨st2, hl, _, _⟩ := reductionLoop_spec h2 ph.npartitions
          (ph.npartitions + 1) (initState ph) (by simp [initState]) (by omega)
        exact ⟨st2, hl⟩
      · refine ⟨initState ph, reductionLoop_exit ?_ _⟩
        simp only [initState]
        omega
    obtain ⟨st2, hl⟩ := hloop
    refine ⟨reductionFinish
        (aggregateName ph.name sumOpId (resolveSE ph.npartitions se)) ph st2,
      ?_, rfl, ?_, ?_⟩
    · show (reductionLoop
            (aggregateName ph.name sumOpId (resolveSE ph.npartitions se))
            (resolveSE ph.npartitions se) (ph.npartitions + 1)
            (initState ph)).map
          (reductionFinish
            (aggregateName ph.name sumOpId (resolveSE ph.npartitions se)) ph) =
        some (reductionFinish
          (aggregateName ph.name sumOpId (resolveSE ph.npartitions se)) ph st2)
      rw [hl]
      rfl
    · simp [reductionFinish]
    · intro hmem
      simp only [reductionFinish] at hmem
      rw [List.map_append, List.mem_append] at hmem
      rcases hmem with h | h
      · rw [hkeys] at h
        simp only [List.mem_map] at h
        obtain ⟨i, _, hi⟩ := h
        have hnm : ph.name =
            aggregateName ph.name sumOpId (resolveSE ph.npartitions se) :=
          ((Key.part.injEq _ _ _ _).mp hi).1
        exact htag (congrArg HName.tag hnm)
      · rw [List.map_append, List.mem_append] at h
        rcases h with h | h
        · simp only [List.mem_map] at h
          obtain ⟨e, he, hfst⟩ := h
          rw [List.mem_filter] at he
          have hbeq := he.2
          rw [hfst] at hbeq
          simp at hbeq
        · simp only [List.mem_map, List.mem_singleton] at h
          obtain ⟨e, he, hfst⟩ := h
          rw [he] at hfst
          exact Key.noConfusion hfst

/-- C3 fails as stated: for a single-partition collection the reduction
builder does not promote the partition's result directly to the aggregated
key — the constructed graph's bare key holds a combine node
`(empty_safe_aggregate, sum, [(name, 0)], True)` over the singleton key list,
exhibited here on a concrete one-partition collection. -/
theorem C3_counterexample :
    (reductionFuel 0 ph1 SEArg.sNone).map
        (fun agg => lookupTask agg.dsk (Key.bare agg.key)) =
      some (some (HTask.aggregate [Key.part nmX 0] true)) := by
  rfl

/-- C3 (amended): for a single-partition collection the level loop is
skipped and the graph gains exactly one aggregate node, keyed by the bare
aggregate name, which folds the singleton list containing the partition's
key; the executed result still equals the single partition's local-fill
result exactly, because `sum([h]) = 0 + h = h`. -/
theorem C3_singleton_reduction (ph : PartitionedHistogram) (env : Nat → ℚ)
    (se : SEArg) (fuel : Nat)
    (hn : ph.npartitions = 1)
    (hdsk : ph.dsk = [(Key.part ph.name 0, HTask.fill 1 0)])
    (hse : 1 ≤ resolveSE ph.npartitions se) :
    ∃ agg, reductionFuel fuel ph se = some agg ∧
      agg.dsk = ph.dsk ++
        [(Key.bare (aggregateName ph.name sumOpId (resolveSE ph.npartitions se)),
          HTask.aggregate [Key.part ph.name 0] true)] ∧
      computeAgg env agg = some (env 0) := by
  have hexit : ¬ resolveSE ph.npartitions se < (initState ph).k := by
    have hk : (initState ph).k = 1 := by simp [initState, hn]
    omega
  have hl := @reductionLoop_exit
    (aggregateName ph.name sumOpId (resolveSE ph.npartitions se))
    (resolveSE ph.npartitions se) (initState ph) hexit fuel
  have hadsk : (reductionFinish
      (aggregateName ph.name sumOpId (resolveSE ph.npartitions se)) ph
      (initState ph)).dsk =
      [(Key.part ph.name 0, HTask.fill 1 0),
       (Key.bare (aggregateName ph.name sumOpId (resolveSE ph.npartitions se)),
        HTask.aggregate [Key.part ph.name 0] true)] := by
    have hr : List.range 1 = [0] := rfl
    simp [reductionFinish, initState, hn, hdsk, hr]
  refine ⟨reductionFinish
      (aggregateName ph.name sumOpId (resolveSE ph.npartitions se)) ph
      (initState ph), ?_, ?_, ?_⟩
  · show (reductionLoop
          (aggregateName ph.name sumOpId (resolveSE ph.npartitions se))
          (resolveSE ph.npartitions se) fuel (initState ph)).map
        (reductionFinish
          (aggregateName ph.name sumOpId (resolveSE ph.npartitions se)) ph) =
      some (reductionFinish
        (aggregateName ph.name sumOpId (resolveSE ph.npartitions se)) ph
        (initState ph))
    rw [hl]
    rfl
  · rw [hadsk, hdsk]
    rfl
  · unfold computeAgg
    rw [hadsk]
    simp [evalGraph, evalGraphAux, evalTask, lookupAll, lookupKey, pySum,
      finalize_item, reductionFinish]

theorem leafDsk_succ (nm : HName) (nd m : Nat) :
    leafDsk nm nd (m + 1) =
      (Key.part nm 0, HTask.fill nd 0) ::
        ((List.range m).map
          (fun i => (Key.part nm (i + 1), HTask.fill nd (i + 1)))) := by
  unfold leafDsk
  rw [List.range_succ_eq_map, List.map_cons, List.map_map]
  rfl

theorem evalGraph_fill_bad {env : Nat → ℚ} {nd : Nat} {rest : Graph}
    (h1 : nd ≠ 1) (h2 : nd ≠ 2) (i : Nat) (k : Key) :
    evalGraph env ((k, HTask.fill nd i) :: rest) = none := by
  simp [evalGraph, evalGraphAux, evalTask, h1, h2]

theorem reductionFinish_dsk (fmt : HName) (ph : PartitionedHistogram)
    (st : LoopState) :
    ∃ tail, (reductionFinish fmt ph st).dsk = ph.dsk ++ tail :=
  ⟨_, rfl⟩

/-- C2 fails as stated: building a histogram collection over rank-3 data is
not rejected at construction time — the construction returns a collection
(the error is deferred into the graph), and only executing the graph fails,
because the rank branch lives inside the blocked fill task `_blocked_sa`. -/
theorem C2_counterexample :
    (reducedHistogramFuel 2 d3 href1 Option.none SEArg.sNone).isSome = true ∧
    (reducedHistogramFuel 2 d3 href1 Option.none SEArg.sNone).bind
        (fun agg => evalGraph env0 agg.dsk) = none := by
  exact ⟨rfl, rfl⟩

/-- C2 (amended): for data whose per-partition rank is neither 1 nor 2,
graph construction performs no rank validation and returns the collection
normally; the `ValueError` from `_blocked_sa` surfaces only when a fill task
of the constructed graph is executed. -/
theorem C2_rank_checked_at_execution (data : DataColl) (h : Histref)
    (w : Option Nat) (env : Nat → ℚ)
    (h1 : data.ndim ≠ 1) (h2 : data.ndim ≠ 2) (hn : 1 ≤ data.npartitions) :
    ∃ agg, reducedHistogramFuel (data.npartitions + 1) data h w SEArg.sNone =
        some agg ∧
      evalGraph env agg.dsk = none := by
  obtain ⟨st2, hl, -, -⟩ := @reductionLoop_spec
    (aggregateName (partitionedOf data h w).name sumOpId 4) 4 (by omega)
    data.npartitions (data.npartitions + 1) (initState (partitionedOf data h w))
    rfl (Nat.le_succ _)
  refine ⟨reductionFinish (aggregateName (partitionedOf data h w).name sumOpId 4)
      (partitionedOf data h w) st2, ?_, ?_⟩
  · show (reductionLoop (aggregateName (partitionedOf data h w).name sumOpId 4) 4
        (data.npartitions + 1) (initState (partitionedOf data h w))).map
        (reductionFinish (aggregateName (partitionedOf data h w).name sumOpId 4)
          (partitionedOf data h w)) =
      some (reductionFinish
        (aggregateName (partitionedOf data h w).name sumOpId 4)
        (partitionedOf data h w) st2)
    rw [hl]
    rfl
  · obtain ⟨m, hm⟩ : ∃ m, data.npartitions = m + 1 :=
      ⟨data.npartitions - 1, by omega⟩
    obtain ⟨tail, htail⟩ := reductionFinish_dsk
      (aggregateName (partitionedOf data h w).name sumOpId 4)
      (partitionedOf data h w) st2
    have hphdsk : (partitionedOf data h w).dsk =
        leafDsk (onBlockName data.idNat h w) data.ndim data.npartitions := rfl
    rw [htail, hphdsk, hm, leafDsk_succ, List.cons_append]
    exact evalGraph_fill_bad h1 h2 0 _

/-- C4 fails as stated: computing a two-partition collection returns the raw
tuple of per-partition partial histograms, not their fold — the partitioned
finalizer is the identity, so the result is `[1, 2]` and not the summed
`[3]`. -/
theorem C4_counterexample :
    computePartitioned env0 ph2 = some [1, 2] ∧
    pySum [1, 2] = 3 ∧ ([1, 2] : List ℚ) ≠ [3] := by
  refine ⟨rfl, ?_, ?_⟩
  · show ((0 : ℚ) + 1) + 2 = 3
    norm_num
  · decide

/-- C4 (amended): the finalization step is a pass-through for both kinds of
collection: `_finalize_partitioned_histogram` returns the raw per-partition
results unchanged (no summation fold), and the aggregated collection's item
finalizer returns its single result. -/
theorem C4_finalize_passthrough :
    (∀ results : List ℚ, finalize_partitioned_histogram results = results) ∧
    (∀ v : ℚ, finalize_item [v] = some v) ∧
    (∀ (env : Nat → ℚ) (ph : PartitionedHistogram),
      computePartitioned env ph =
        (evalGraph env ph.dsk).bind (fun ρ => lookupAll ρ (phKeys ph))) := by
  refine ⟨fun r => rfl, fun v => rfl, fun env ph => ?_⟩
  unfold computePartitioned
  cases evalGraph env ph.dsk with
  | none => rfl
  | some ρ =>
    show (lookupAll ρ (phKeys ph)).map finalize_partitioned_histogram =
      lookupAll ρ (phKeys ph)
    cases lookupAll ρ (phKeys ph) with
    | none => rfl
    | some l => rfl

/-- C7: binary operator construction (shared by the in-place spellings
`+=`, `*=`, `/=` and the plain spellings, which all call the same `BinaryOp`
instances) never mutates a previously constructed collection: every object
already on the heap — in particular the left operand, with its graph and key
— is looked up unchanged afterwards, and the call only allocates one new
`AggHistogram` at a fresh identity not present before. -/
theorem C7_no_mutation (b : BinaryOpDef) (σ σ2 : Heap) (x y : Operand) (r : Nat)
    (h : binary_op_call b σ x y = some (σ2, r)) :
    (∀ (i : Nat) (o : AggHistogram), Heap.lookup σ i = some o →
      Heap.lookup σ2 i = some o) ∧
    Heap.lookup σ r = none := by
  have key : ∃ o, σ2 = σ ++ [(freshId σ, o)] ∧ r = freshId σ := by
    unfold binary_op_call at h
    split at h
    · split at h
      · simp only [Option.some.injEq, Prod.mk.injEq] at h
        exact ⟨_, h.1.symm, h.2.symm⟩
      · split at h
        · simp only [Option.some.injEq, Prod.mk.injEq] at h
          exact ⟨_, h.1.symm, h.2.symm⟩
        · exact absurd h (by simp)
    · exact absurd h (by simp)
  obtain ⟨o, h2, h3⟩ := key
  subst h2
  subst h3
  exact ⟨fun i oo hio => Heap.lookup_append_of_some hio _, Heap.lookup_freshId σ⟩

/-- C8: materialization selects the content dtype from the storage kind —
integral exactly for the pure counting storages `Int64` and `AtomicInt64`,
floating point otherwise — keeps the descriptor's per-axis extents as the
content shape without flow, expands every extent by exactly 2 with flow, and
emits one edge array per axis; in particular extents `(10, 20)` give shape
`(10, 20)` without flow and `(12, 22)` with flow. -/
theorem C8_materialization (agg : AggHistogram) (flow : Bool) :
    (to_dask_array agg false).shape = agg.histref.axes.map (fun a => a.extent) ∧
    (to_dask_array agg true).shape =
      agg.histref.axes.map (fun a => a.extent + 2) ∧
    ((to_dask_array agg flow).dtypeIsInt = true ↔
      (agg.histref.storage = Storage.Int64 ∨
        agg.histref.storage = Storage.AtomicInt64)) ∧
    (to_dask_array agg flow).edges.length = agg.histref.axes.length ∧
    (agg.histref.axes.map (fun a => a.extent) = [10, 20] →
      (to_dask_array agg false).shape = [10, 20] ∧
      (to_dask_array agg true).shape = [12, 22]) := by
  refine ⟨rfl, ?_, ?_, ?_, ?_⟩
  · show (agg.histref.axes.map (fun a => a.extent)).map (fun i => i + 2) =
      agg.histref.axes.map (fun a => a.extent + 2)
    rw [List.map_map]
    rfl
  · show decide (agg.histref.storage = Storage.Int64 ∨
        agg.histref.storage = Storage.AtomicInt64) = true ↔ _
    simp
  · show (agg.histref.axes.map (fun a => a.edges)).length = _
    rw [List.length_map]
  · intro h10
    refine ⟨h10, ?_⟩
    show (agg.histref.axes.map (fun a => a.extent)).map (fun i => i + 2) =
      [12, 22]
    rw [h10]
    rfl

/-- C9: when neither operand of a binary operator construction is a
collection, the construction raises synchronously (the uncaught
`AttributeError` from the `ref = a.histref` / `ref = b.histref` chain,
modelled as `none`); when exactly one operand is a collection, the
constructed collection's reference descriptor is that collection's
descriptor. -/
theorem C9_binary_op_operands (b : BinaryOpDef) (σ : Heap) (q : ℚ) :
    (∀ r : ℚ, binary_op_call b σ (Operand.scalar q) (Operand.scalar r) = none) ∧
    (∀ (i : Nat) (A : AggHistogram), Heap.lookup σ i = some A →
      (binary_op_call b σ (Operand.ref i) (Operand.scalar q)).bind
          (fun pr => (Heap.lookup pr.1 pr.2).map (fun o => o.histref)) =
        some A.histref ∧
      (binary_op_call b σ (Operand.scalar q) (Operand.ref i)).bind
          (fun pr => (Heap.lookup pr.1 pr.2).map (fun o => o.histref)) =
        some A.histref) := by
  constructor
  · intro r
    rfl
  · intro i A hA
    constructor
    · simp only [binary_op_call, operandTok, operandGraph, operandArg,
        operandHistref, hA, Option.map_some', Option.some_bind]
      rw [Heap.lookup_append_of_none (Heap.lookup_freshId σ)]
      rfl
    · simp only [binary_op_call, operandTok, operandGraph, operandArg,
        operandHistref, hA, Option.map_some', Option.some_bind]
      rw [Heap.lookup_append_of_none (Heap.lookup_freshId σ)]
      rfl

/-- Witness for C2 at the concrete rank-3 single-partition input. -/
theorem C2_witness :
    (reducedHistogramFuel (d3.npartitions + 1) d3 href1 Option.none
        SEArg.sNone).isSome = true ∧
    (reducedHistogramFuel (d3.npartitions + 1) d3 href1 Option.none
        SEArg.sNone).bind (fun agg => evalGraph env0 agg.dsk) = none := by
  obtain ⟨agg, h1, h2⟩ := C2_rank_checked_at_execution d3 href1 Option.none env0
    (by decide) (by decide) (by decide)
  rw [h1]
  exact ⟨rfl, h2⟩

/-- Witness for C3 on the concrete one-partition collection: the reduced
collection computes to the single partition's fill value. -/
theorem C3_witness :
    (reductionFuel 0 ph1 SEArg.sNone).map (fun agg => computeAgg env0 agg) =
      some (some 1) := by
  obtain ⟨agg, h1, -, h3⟩ := C3_singleton_reduction ph1 env0 SEArg.sNone 0 rfl rfl
    (by decide)
  rw [h1, Option.map_some', h3]
  rfl

/-- Witness for C5 at `n = 20`, `F = 4`: the loop returns and the number of
combine levels is `⌈log₄ 20⌉ = 3`. -/
theorem C5_witness :
    (reductionLoop (aggregateName ph20.name sumOpId 4) 4 20
        (initState ph20)).map (fun st => st.d + 1) = some (Nat.clog 4 20) ∧
    Nat.clog 4 20 = 3 := by
  have hc : Nat.clog 4 20 = 3 := by
    rw [Nat.clog_of_two_le (by norm_num) (by norm_num)]
    norm_num
    rw [Nat.clog_of_two_le (by norm_num) (by norm_num)]
    norm_num
    rw [Nat.clog_eq_one (by norm_num) (by norm_num)]
  obtain ⟨st2, hl, hdep, -⟩ := (@C5_reduction_tree 4 20 (by norm_num)
    (by norm_num)).2.2.2.2 ph20 20 rfl (by norm_num)
  refine ⟨?_, hc⟩
  rw [hl, Option.map_some', hdep]

/-- Witness for C7 at a concrete heap: after `a + 2` is constructed the
original object 0 is unchanged and the new identity was absent before. -/
theorem C7_witness :
    Heap.lookup ((binary_op_call iaddOp heap0 (Operand.ref 0)
        (Operand.scalar 2)).getD (heap0, 0)).1 0 = some aggA ∧
    Heap.lookup heap0 ((binary_op_call iaddOp heap0 (Operand.ref 0)
        (Operand.scalar 2)).getD (heap0, 0)).2 = none := by
  have h : binary_op_call iaddOp heap0 (Operand.ref 0) (Operand.scalar 2) =
      some (((binary_op_call iaddOp heap0 (Operand.ref 0)
          (Operand.scalar 2)).getD (heap0, 0)).1,
        ((binary_op_call iaddOp heap0 (Operand.ref 0)
          (Operand.scalar 2)).getD (heap0, 0)).2) := rfl
  have hc := C7_no_mutation iaddOp heap0 _ (Operand.ref 0) (Operand.scalar 2) _ h
  exact ⟨hc.1 0 aggA rfl, hc.2⟩

/-- Witness for C8 on the concrete `(10, 20)` descriptor. -/
theorem C8_witness :
    (to_dask_array agg1020 false).shape = [10, 20] ∧
    (to_dask_array agg1020 true).shape = [12, 22] :=
  (C8_materialization agg1020 false).2.2.2.2 rfl

/-- Witness for C9 at a concrete heap: two scalars are rejected, and with
one collection operand the result's descriptor is that operand's. -/
theorem C9_witness :
    binary_op_call iaddOp heap0 (Operand.scalar 1) (Operand.scalar 2) = none ∧
    (binary_op_call itruedivOp heap0 (Operand.ref 0) (Operand.scalar 2)).bind
        (fun pr => (Heap.lookup pr.1 pr.2).map (fun o => o.histref)) =
      some href1 := by
  refine ⟨(C9_binary_op_operands iaddOp heap0 1).1 2, ?_⟩
  exact ((C9_binary_op_operands itruedivOp heap0 2).2 0 aggA rfl).1

/-- Witness for C10 on a concrete two-partition collection with
`split_every = False` (resolved to the partition count). -/
theorem C10_witness :
    (reductionFuel (ph2.npartitions + 1) ph2 SEArg.sFalse).map
        (fun agg => agg.key) =
      some (aggregateName ph2.name sumOpId
        (resolveSE ph2.npartitions SEArg.sFalse)) := by
  obtain ⟨-, agg, h1, h2, -, -⟩ := C10_reduction_terminates ph2 SEArg.sFalse rfl
    (by decide) (Or.inr rfl)
  rw [h1, Option.map_some', h2]
